import Mathlib

/-!
Verification development for the ShaderMake shader-build driver
(`src/ShaderMake.cpp`).  The file contains a shallow embedding of the
driver's core subsystems — the hierarchy-time oracle, the config-line
planner with its freshness check and blob registration, the worker-pool
result classification, the config preprocessor, and the blob assembler —
together with theorems checking the specification's claims about them.

Modelling conventions:
  * `std::filesystem` paths are modelled as plain strings with `/` as the
    separator; the path helpers below model the `std::filesystem::path`
    operations the driver uses (`parent_path`, `filename`, `stem`,
    `replace_extension("")`, `operator/`, `lexically_normal`) for the
    well-formed relative paths the driver builds.
  * Filesystem state is passed explicitly: association lists for source
    files, functions `String → Option Nat` for output-file timestamps
    (`none` = the file does not exist) and `String → Bool` for directory
    existence.  `fs::file_time_type` is modelled as `Nat`; the
    default-constructed "zero" sentinel used by `ProcessConfigLine` is `0`.
  * `std::hash<std::string>` is implementation-defined and is therefore a
    parameter `szHash : String → Nat` of the planner model.
-/

namespace SMK

/-! ### Character / string helpers -/

def strChars (s : String) : List Char := s.data

def charsStr (l : List Char) : String := String.mk l

/-- `\s` of the `std::regex` ECMAScript grammar: space, tab, CR, LF, VT, FF. -/
def isWSpaceC (c : Char) : Bool :=
  c = ' ' || c = '\t' || c = '\r' || c = '\n' || c = '\x0b' || c = '\x0c'

def startsWithChars : List Char → List Char → Bool
  | [], _ => true
  | _ :: _, [] => false
  | a :: as, b :: bs => a = b && startsWithChars as bs

/-- Index of the first occurrence of `pat` in `s` (`std::string::find`). -/
def findSubstrIdx (pat : List Char) : List Char → Option Nat
  | [] => if startsWithChars pat [] then some 0 else none
  | a :: rest =>
    if startsWithChars pat (a :: rest) then some 0
    else (findSubstrIdx pat rest).map (· + 1)

def containsSubstr (pat : List Char) (s : List Char) : Bool :=
  (findSubstrIdx pat s).isSome

/-- Split a character list at every occurrence of `c` (keeping empty parts). -/
def splitChar (c : Char) : List Char → List (List Char)
  | [] => [[]]
  | a :: rest =>
    let r := splitChar c rest
    if a = c then [] :: r else (a :: r.headD []) :: r.tail

def intercalateSlash : List (List Char) → List Char
  | [] => []
  | [p] => p
  | p :: ps => p ++ '/' :: intercalateSlash ps

/-! ### Path model (`std::filesystem::path` operations used by the driver) -/

def lastIsSlash (s : String) : Bool :=
  match s.data.getLast? with
  | some c => c = '/'
  | none => false

def headIsSlash (s : String) : Bool :=
  match s.data with
  | c :: _ => c = '/'
  | [] => false

/-- `fs::path::operator/` for the relative paths the driver builds. -/
def joinPath (a b : String) : String :=
  if a = "" then b
  else if b = "" then (if lastIsSlash a then a else a ++ "/")
  else if headIsSlash b then b
  else if lastIsSlash a then a ++ b
  else a ++ "/" ++ b

/-- Everything before the last `/` (`fs::path::parent_path` on relative paths). -/
def parentDirChars (l : List Char) : List Char :=
  let rev := l.reverse
  let afterLast := rev.dropWhile (· ≠ '/')
  match afterLast with
  | [] => []
  | _ :: before => before.reverse

def parentDir (s : String) : String := charsStr (parentDirChars (strChars s))

/-- Everything after the last `/` (`fs::path::filename`). -/
def fileNameChars (l : List Char) : List Char :=
  ((l.reverse).takeWhile (· ≠ '/')).reverse

def pathFilename (s : String) : String := charsStr (fileNameChars (strChars s))

/-- Length of the extension (including the dot) of a filename, following the
`fs::path::extension` rules: `.`, `..` and dot-files have no extension. -/
def extLenOfFilename (f : List Char) : Nat :=
  if f = ['.'] ∨ f = ['.', '.'] then 0
  else
    let tailRev := f.reverse.takeWhile (· ≠ '.')
    if tailRev.length + 1 ≤ f.length ∧ tailRev.length + 1 ≠ f.length then
      tailRev.length + 1
    else 0

/-- `fs::path::stem` of a path: its filename without the extension. -/
def pathStem (s : String) : String :=
  let f := fileNameChars (strChars s)
  charsStr (f.take (f.length - extLenOfFilename f))

/-- `p.replace_extension("")`: drop the filename's extension from the path. -/
def replaceExtensionEmpty (p : String) : String :=
  let l := strChars p
  charsStr (l.take (l.length - extLenOfFilename (fileNameChars l)))

/-- `RemoveLeadingDotDots`: drop leading `..` components, rejoin the rest. -/
def removeLeadingDotDots (p : String) : String :=
  let comps := splitChar '/' (strChars p)
  charsStr (intercalateSlash (comps.dropWhile (· = ['.', '.'])))

/-- Lexical normalisation of a component list: drop empty and `.` components,
resolve `..` against a preceding real component. -/
def normComps (comps : List (List Char)) : List (List Char) :=
  (comps.foldl
    (fun acc c =>
      if c = [] ∨ c = ['.'] then acc
      else if c = ['.', '.'] then
        match acc with
        | d :: r => if d = ['.', '.'] then c :: acc else r
        | [] => [c]
      else c :: acc)
    []).reverse

/-- `PathToString`: `path.lexically_normal().string()` (with `/` preferred),
modelled for the relative paths the planner builds. -/
def pathToString (p : String) : String :=
  let j := intercalateSlash (normComps (splitChar '/' (strChars p)))
  if j = [] then "." else charsStr j

/-! ### Data model (`Options`, `ConfigLine`, `TaskData`, `BlobEntry`) -/

inductive Platform where
  | DXBC
  | DXIL
  | SPIRV
deriving DecidableEq

/-- The subset of the global `Options` the planner, pool and blob assembler
read (`g_OutputExt` is the resolved output extension). -/
structure Options where
  platform : Platform
  outputDir : String
  outputExt : String
  optimizationLevel : Nat
  binary : Bool
  header : Bool
  binaryBlob : Bool
  headerBlob : Bool
  force : Bool
  flatten : Bool
  pdb : Bool
  continueOnError : Bool
deriving DecidableEq

def Options.IsBlob (o : Options) : Bool := o.binaryBlob || o.headerBlob

/-- A parsed config line (`ConfigLine` after `ConfigLine::Parse`). -/
structure ConfigLine where
  defines : List String
  source : String
  entryPoint : String
  profile : String
  outputDir : Option String
  optimizationLevel : Nat
deriving DecidableEq

/-- `USE_GLOBAL_OPTIMIZATION_LEVEL` -/
def USE_GLOBAL_OPTIMIZATION_LEVEL : Nat := 0xFF

structure TaskData where
  defines : List String
  source : String
  entryPoint : String
  profile : String
  outputFileWithoutExt : String
  combinedDefines : String
  optimizationLevel : Nat
deriving DecidableEq

structure BlobEntry where
  permutationFileWithoutExt : String
  combinedDefines : String
deriving DecidableEq

/-- `HashToUint`: fold a `size_t` hash to 32 bits (`uint32_t(h) ^ uint32_t(h >> 32)`). -/
def HashToUint (h : Nat) : Nat := (h % 2 ^ 32) ^^^ (h / 2 ^ 32 % 2 ^ 32)

def hexDigit (n : Nat) : Char :=
  if n < 10 then Char.ofNat (48 + n) else Char.ofNat (55 + n)

/-- The `snprintf(buf, _, "_%08X", h)` permutation-hash suffix (without `_`). -/
def hex8 (n : Nat) : String :=
  charsStr [hexDigit (n / 16 ^ 7 % 16), hexDigit (n / 16 ^ 6 % 16),
    hexDigit (n / 16 ^ 5 % 16), hexDigit (n / 16 ^ 4 % 16),
    hexDigit (n / 16 ^ 3 % 16), hexDigit (n / 16 ^ 2 % 16),
    hexDigit (n / 16 % 16), hexDigit (n % 16)]

/-! ### The planner: `ProcessConfigLine` -/

/-- Space-joined define list ("Concatenate define strings"). -/
def combinedDefinesOf (defines : List String) : String :=
  String.intercalate " " defines

/-- "Compiled shader name" computation of `ProcessConfigLine`. -/
def shaderNameOf (o : Options) (cl : ConfigLine) : String :=
  let n1 := replaceExtensionEmpty (removeLeadingDotDots cl.source)
  let n2 := if o.flatten || cl.outputDir.isSome then pathFilename n1 else n1
  if cl.entryPoint ≠ "main" then n2 ++ "_" ++ cl.entryPoint else n2

/-- "Compiled permutation name": shader name plus hash suffix when the define
list is non-empty (`szHash` models `std::hash<std::string>`). -/
def permutationNameCore (szHash : String → Nat) (shaderName : String)
    (defines : List String) : String :=
  if defines.isEmpty then shaderName
  else shaderName ++ "_" ++ hex8 (HashToUint (szHash (combinedDefinesOf defines)))

def permutationNameOf (szHash : String → Nat) (o : Options) (cl : ConfigLine) : String :=
  permutationNameCore szHash (shaderNameOf o cl) cl.defines

/-- "Output directory": the global output directory joined with the per-line
subdirectory, when one was given. -/
def lineOutputDirOf (o : Options) (cl : ConfigLine) : String :=
  match cl.outputDir with
  | some d => joinPath o.outputDir d
  | none => o.outputDir

/-- The directory whose absence forces a rebuild ("Create intermediate output
directories", including the `PDB` subdirectory). -/
def endPathOf (o : Options) (cl : ConfigLine) : String :=
  let e := joinPath (lineOutputDirOf o cl) (parentDir (shaderNameOf o cl))
  if o.pdb then joinPath e "PDB" else e

/-- `force` after the directory-creation step (`dirFS` = directory existence). -/
def planForce0 (o : Options) (cl : ConfigLine) (dirFS : String → Bool) : Bool :=
  o.force || (endPathOf o cl ≠ "" && !dirFS (endPathOf o cl))

/-- The four candidate output files checked by the freshness code, in program
order, each tagged with whether its output form was requested. -/
def requiredOutputs (szHash : String → Nat) (o : Options) (cl : ConfigLine) :
    List (Bool × String) :=
  let permFile := joinPath (lineOutputDirOf o cl) (permutationNameOf szHash o cl) ++ o.outputExt
  let shadFile := joinPath (lineOutputDirOf o cl) (shaderNameOf o cl) ++ o.outputExt
  [(o.binary, permFile), (o.header, permFile ++ ".h"),
   (o.binaryBlob, shadFile), (o.headerBlob, shadFile ++ ".h")]

/-- One block of the freshness check: `force |= !exists(file); if (!force)
accumulate min(outputTime, lwt)` (with `0` the `fs::file_time_type` zero). -/
def freshStep (outFS : String → Option Nat) (ft : Bool × Nat) (p : Bool × String) :
    Bool × Nat :=
  if p.1 then
    match outFS p.2 with
    | none => (true, ft.2)
    | some lwt => if ft.1 then ft else (ft.1, if ft.2 = 0 then lwt else min ft.2 lwt)
  else ft

/-- `(force, outputTime)` after the four freshness blocks. -/
def freshResult (szHash : String → Nat) (o : Options) (cl : ConfigLine)
    (outFS : String → Option Nat) (dirFS : String → Bool) : Bool × Nat :=
  (requiredOutputs szHash o cl).foldl (freshStep outFS) (planForce0 o cl dirFS, 0)

/-- DXBC: skip unsupported profiles. -/
def dxbcSkip (o : Options) (cl : ConfigLine) : Bool :=
  decide (o.platform = Platform.DXBC) &&
    (cl.profile = "lib" || cl.profile = "ms" || cl.profile = "as")

structure PlanState where
  tasks : List TaskData
  blobs : List (String × List BlobEntry)
deriving DecidableEq

/-- `g_ShaderBlobs[blobName].push_back(entry)` on the blob registry. -/
def blobInsert (m : List (String × List BlobEntry)) (k : String) (e : BlobEntry) :
    List (String × List BlobEntry) :=
  match m with
  | [] => [(k, [e])]
  | (k0, es) :: rest =>
    if k0 = k then (k0, es ++ [e]) :: rest else (k0, es) :: blobInsert rest k e

/-- The resolved per-task optimization level ("Prepare a task"). -/
def resolveOptimizationLevel (globalLevel lineLevel : Nat) : Nat :=
  min (if lineLevel = USE_GLOBAL_OPTIMIZATION_LEVEL then globalLevel else lineLevel) 3

/-- The `TaskData` record built by "Prepare a task". -/
def taskOf (szHash : String → Nat) (o : Options) (cl : ConfigLine) : TaskData :=
  { defines := cl.defines
    source := cl.source
    entryPoint := cl.entryPoint
    profile := cl.profile
    outputFileWithoutExt :=
      pathToString (joinPath (lineOutputDirOf o cl) (permutationNameOf szHash o cl))
    combinedDefines := combinedDefinesOf cl.defines
    optimizationLevel := resolveOptimizationLevel o.optimizationLevel cl.optimizationLevel }

/-- "Prepare a task" plus "Gather blobs": append the task, and when a blob
output form is requested, register the blob entry. -/
def addTask (szHash : String → Nat) (o : Options) (cl : ConfigLine)
    (st : PlanState) : PlanState :=
  let t := taskOf szHash o cl
  { tasks := st.tasks ++ [t]
    blobs :=
      if o.IsBlob then
        blobInsert st.blobs
          (pathToString (joinPath (lineOutputDirOf o cl) (shaderNameOf o cl)))
          ⟨t.outputFileWithoutExt, t.combinedDefines⟩
      else st.blobs }

/-- `ProcessConfigLine` on an already-parsed line.  `hier` is the result of
`GetHierarchicalUpdateTime` on the line's source file (`none` = failure);
`configTime` is `max(lwt(config), lwt(self))` as computed in `main`.
Returns `none` on planning failure, otherwise the updated plan state. -/
def processConfigLine (szHash : String → Nat) (o : Options) (cl : ConfigLine)
    (outFS : String → Option Nat) (dirFS : String → Bool)
    (hier : Option Nat) (configTime : Nat) (st : PlanState) : Option PlanState :=
  if dxbcSkip o cl then some st
  else
    let fr := freshResult szHash o cl outFS dirFS
    if fr.1 then some (addTask szHash o cl st)
    else
      match hier with
      | none => none
      | some h =>
        let sourceTime := max h configTime
        if sourceTime < fr.2 then some st
        else some (addTask szHash o cl st)

/-! ### Hierarchy-time oracle (`GetHierarchicalUpdateTime`)

Source files are an association list from path to `(last-write-time, lines)`.
The memo `g_HierarchicalUpdateTimes` is threaded explicitly.  The C++
recursion has no termination argument, so the model takes a fuel parameter
consumed once per file visit; `GRes.noFuel` marks fuel exhaustion (i.e. the
C++ recursion nests deeper than the given fuel). -/

structure SrcFile where
  lwt : Nat
  lines : List String
deriving DecidableEq

def assocFind {α : Type} : List (String × α) → String → Option α
  | [], _ => none
  | (k, v) :: rest, f => if k = f then some v else assocFind rest f

abbrev SrcFS := List (String × SrcFile)

/-- Global include state: include search directories and relaxed includes. -/
structure IncCtx where
  includeDirs : List String
  relaxedIncludes : List String

/-- The include pattern of `GetHierarchicalUpdateTime`:
`regex_match` against `\s*#include\s+["<]([^>"]+)[>"].*`, returning the
captured include name. -/
def matchIncludeChars (l : List Char) : Option (List Char) :=
  let l1 := l.dropWhile isWSpaceC
  if startsWithChars (strChars "#include") l1 then
    match l1.drop 8 with
    | [] => none
    | c :: _ =>
      if isWSpaceC c then
        match (l1.drop 8).dropWhile isWSpaceC with
        | [] => none
        | q :: l4 =>
          if q = '"' ∨ q = '<' then
            let name := l4.takeWhile (fun d => d ≠ '>' ∧ d ≠ '"')
            match l4.drop name.length with
            | [] => none
            | e :: _ =>
              if (e = '>' ∨ e = '"') ∧ name ≠ [] then some name else none
          else none
      else none
  else none

/-- The include name a line contributes, after the relaxed-include filter. -/
def lineIncName (C : IncCtx) (line : String) : Option String :=
  match matchIncludeChars (strChars line) with
  | none => none
  | some nm =>
    let name := charsStr nm
    if name ∈ C.relaxedIncludes then none else some name

def findInDirs (fs : SrcFS) (name : String) : List String → Option String
  | [] => none
  | d :: rest =>
    let f := joinPath d name
    if (assocFind fs f).isSome then some f else findInDirs fs name rest

/-- Include resolution: the file's parent directory first, then the include
directories in order (`fs::exists` = membership in the source map). -/
def resolveName (C : IncCtx) (fs : SrcFS) (dir name : String) : Option String :=
  let f0 := joinPath dir name
  if (assocFind fs f0).isSome then some f0 else findInDirs fs name C.includeDirs

abbrev Memo := List (String × Nat)

inductive GRes where
  | ok : Nat → Memo → GRes
  | fail : GRes
  | noFuel : GRes
deriving DecidableEq

/-- The per-line loop of `GetHierarchicalUpdateTime`, parametric in the
recursive call `rec` (skip non-include and relaxed lines, resolve the rest —
unresolved is `fail` — recurse, and keep the running maximum
`hierarchicalUpdateTime`). -/
def ghutLinesAux (C : IncCtx) (fs : SrcFS) (rec : Memo → String → GRes)
    (dir : String) : Memo → List String → Nat → GRes
  | m, [], acc => .ok acc m
  | m, line :: rest, acc =>
    match lineIncName C line with
    | none => ghutLinesAux C fs rec dir m rest acc
    | some name =>
      match resolveName C fs dir name with
      | none => .fail
      | some incFile =>
        match rec m incFile with
        | .ok t m2 => ghutLinesAux C fs rec dir m2 rest (max t acc)
        | r => r

/-- `GetHierarchicalUpdateTime`: memo lookup, then open the file and fold its
lines; on success the result is memoised.  A file miss is `fail` (the C++
error path); the call-stack argument is diagnostics-only and is omitted.
One unit of fuel is consumed per nested file visit. -/
def ghut (C : IncCtx) (fs : SrcFS) : Nat → Memo → String → GRes
  | 0, _, _ => .noFuel
  | fuel + 1, m, file =>
    match assocFind m file with
    | some t => .ok t m
    | none =>
      match assocFind fs file with
      | none => .fail
      | some fd =>
        match ghutLinesAux C fs (fun m2 f => ghut C fs fuel m2 f) (parentDir file)
            m fd.lines fd.lwt with
        | .ok t m2 => .ok t ((file, t) :: m2)
        | r => r

/-- The line loop at a given fuel level. -/
def ghutLines (C : IncCtx) (fs : SrcFS) (fuel : Nat) (m : Memo) (dir : String)
    (lines : List String) (acc : Nat) : GRes :=
  ghutLinesAux C fs (fun m2 f => ghut C fs fuel m2 f) dir m lines acc

/-- Memo-free per-line loop, parametric in the recursive call (reference
recursion used to reason about the memoised `ghut`). -/
def pureHTLinesAux (C : IncCtx) (fs : SrcFS) (rec : String → Option Nat)
    (dir : String) : List String → Nat → Option Nat
  | [], acc => some acc
  | line :: rest, acc =>
    match lineIncName C line with
    | none => pureHTLinesAux C fs rec dir rest acc
    | some name =>
      match resolveName C fs dir name with
      | none => none
      | some incFile =>
        match rec incFile with
        | some t => pureHTLinesAux C fs rec dir rest (max t acc)
        | none => none

/-- Memo-free reference recursion of the oracle: same traversal and fuel
discipline as `ghut`, no memo. -/
def pureHT (C : IncCtx) (fs : SrcFS) : Nat → String → Option Nat
  | 0, _ => none
  | fuel + 1, file =>
    match assocFind fs file with
    | none => none
    | some fd => pureHTLinesAux C fs (fun f => pureHT C fs fuel f) (parentDir file) fd.lines fd.lwt

/-- The resolved, non-relaxed include files of a line list (`none` when some
include fails to resolve). -/
def resolveLines (C : IncCtx) (fs : SrcFS) (dir : String) : List String → Option (List String)
  | [] => some []
  | line :: rest =>
    match lineIncName C line with
    | none => resolveLines C fs dir rest
    | some name =>
      match resolveName C fs dir name with
      | none => none
      | some f =>
        match resolveLines C fs dir rest with
        | none => none
        | some l => some (f :: l)

/-- The resolved, non-relaxed include files of a source file. -/
def resolvedIncludesOf (C : IncCtx) (fs : SrcFS) (file : String) : Option (List String) :=
  match assocFind fs file with
  | none => none
  | some fd => resolveLines C fs (parentDir file) fd.lines

/-- The last-write-time a source file carries in the file map. -/
def srcLwt (fs : SrcFS) (file : String) : Nat :=
  match assocFind fs file with
  | some fd => fd.lwt
  | none => 0

/-- The oracle diverges on `file`: no amount of recursion fuel completes the
C++ recursion (starting from the empty memo of program start). -/
def ghutDiverges (C : IncCtx) (fs : SrcFS) (file : String) : Prop :=
  ∀ fuel, ghut C fs fuel [] file = .noFuel

/-! ### Worker pool: `ExeCompile` result classification and `UpdateProgress`

`popen`/`pclose` return an `int` status: `-1` on wait failure, otherwise a
`waitpid` status word.  `WIFEXITED`/`WEXITSTATUS` are the POSIX status-word
accessors (`(s & 0x7f) == 0` and `(s >> 8) & 0xff`). -/

def wifexited (r : Int) : Bool := r % 128 = 0

def wexitstatus (r : Int) : Nat := (r / 256 % 256).toNat

/-- The status classification at the end of `ExeCompile`'s task loop:
`(isSucceeded, willRetry)` from the `pclose` result, the `errno == ECHILD`
condition, and the shared retry budget `g_TaskRetryCount`. -/
def classifyExeResult (posix : Bool) (result : Int) (errnoEChild : Bool)
    (retryCount : Int) : Bool × Bool :=
  let childProcessError := decide (result = -1) && errnoEChild
  let commandShellError :=
    if posix then wifexited result && decide (wexitstatus result = 127) else false
  if result = 0 then (true, false)
  else if decide (0 < retryCount) && (childProcessError || commandShellError) then
    (false, true)
  else (false, false)

/-- The shared mutable state touched by `UpdateProgress`: the task queue
(`g_TaskData` during the pool phase), `g_TaskRetryCount`,
`g_ProcessedTaskCount`, `g_FailedTaskCount` and `g_Terminate`. -/
structure PoolState where
  taskQueue : List TaskData
  retryCount : Int
  processedCount : Nat
  failedCount : Nat
  terminate : Bool
deriving DecidableEq

/-- `UpdateProgress`: success bumps the processed counter; a retry re-pushes
the task and decrements the retry budget; a hard failure sets the terminate
flag (unless continue-on-error) and bumps the failed counter. -/
def updateProgress (continueOnError : Bool) (td : TaskData)
    (isSucceeded willRetry : Bool) (s : PoolState) : PoolState :=
  if isSucceeded then { s with processedCount := s.processedCount + 1 }
  else if willRetry then
    { s with taskQueue := s.taskQueue ++ [td], retryCount := s.retryCount - 1 }
  else
    { s with terminate := s.terminate || !continueOnError,
             failedCount := s.failedCount + 1 }

/-! ### Blob assembler ("Dump shader blobs" in `main`) -/

/-- What the blob loop records: whether it completed (false = `return 1`),
the validation diagnostics (the shader base names of invalid groups), and the
blob files it opened for writing as `(blobName, textMode)`.  `bw name text`
abstracts whether `CreateBlob` succeeds for that output. -/
structure BlobRunResult where
  completed : Bool
  diags : List String
  writes : List (String × Bool)
deriving DecidableEq

/-- The "Dump shader blobs" loop of `main` over the registered groups. -/
def dumpBlobs (o : Options) (bw : String → Bool → Bool) :
    List (String × List BlobEntry) → BlobRunResult
  | [] => ⟨true, [], []⟩
  | (name, es) :: rest =>
    -- a blob with one entry and no defines: the individual file already has
    -- the blob's name, skip silently
    if es.length = 1 && (es.headD ⟨"", ""⟩).combinedDefines = "" then
      dumpBlobs o bw rest
    -- validate: no entry may have empty defines (its file would alias the blob)
    else if es.any (fun e => e.combinedDefines = "") then
      if o.continueOnError then
        let r := dumpBlobs o bw rest
        ⟨r.completed, pathStem name :: r.diags, r.writes⟩
      else ⟨false, [pathStem name], []⟩
    else
      if o.binaryBlob && !bw name false && !o.continueOnError then
        ⟨false, [], [(name, false)]⟩
      else if o.headerBlob && !bw name true && !o.continueOnError then
        ⟨false, [], (if o.binaryBlob then [(name, false)] else []) ++ [(name, true)]⟩
      else
        let r := dumpBlobs o bw rest
        ⟨r.completed, r.diags,
          (if o.binaryBlob then [(name, false)] else []) ++
            (if o.headerBlob then [(name, true)] else []) ++ r.writes⟩

/-! ### Orchestrator exit status (`main` after option parsing) -/

/-- The exit status of `main` from the planning phase on: planning failure
returns 1; an empty task set skips the pool and blob phases; a terminate
after the pool joins returns 1; a blob-loop abort returns 1; finally
`(g_Terminate || g_FailedTaskCount) ? 1 : 0`. -/
def mainExitCode (planOk : Bool) (tasksEmpty : Bool) (terminate : Bool)
    (failedCount : Nat) (o : Options) (bw : String → Bool → Bool)
    (blobs : List (String × List BlobEntry)) : Nat :=
  if !planOk then 1
  else if !tasksEmpty then
    if terminate then 1
    else if !(dumpBlobs o bw blobs).completed then 1
    else if terminate || decide (failedCount ≠ 0) then 1 else 0
  else if terminate || decide (failedCount ≠ 0) then 1 else 0

/-! ### Config preprocessor ("Gather shader permutations" in `main`)

One step of the per-line loop, after `TrimConfigLine`.  The stack of active
states `blocks` is modelled head-at-top (the C++ `vector` top is `back()`);
the result is `(stack, diagnosticEmitted, lineExpanded)`. -/

/-- `std::string::find_first_not_of(' ')`. -/
def findIdxNotSpace : List Char → Option Nat
  | [] => none
  | c :: rest => if c ≠ ' ' then some 0 else (findIdxNotSpace rest).map (· + 1)

/-- The `#ifdef` name extraction: `pos = find("#ifdef") + 6;
pos += substr(pos).find_first_not_of(' '); define = substr(pos)`.
When nothing follows, `find_first_not_of` returns `npos` and the `size_t`
addition wraps to `pos - 1`. -/
def ifdefDefine (l : List Char) (i : Nat) : List Char :=
  match findIdxNotSpace (l.drop (i + 6)) with
  | some k => l.drop (i + 6 + k)
  | none => l.drop (i + 6 - 1)

def ppStep (defines : List String) (stack : List Bool) (line : String) :
    List Bool × Bool × Bool :=
  let l := strChars line
  -- skip an empty or commented line
  if line = "" then (stack, false, false)
  else if l.headD ' ' = '/' ∧ (l.drop 1).headD ' ' = '/' then (stack, false, false)
  else
    match findSubstrIdx (strChars "#ifdef") l with
    | some i =>
      let d := charsStr (ifdefDefine l i)
      ((stack.headD false && decide (d ∈ defines)) :: stack, false, false)
    | none =>
      if containsSubstr (strChars "#if 1") l then (stack.headD false :: stack, false, false)
      else if containsSubstr (strChars "#if 0") l then (false :: stack, false, false)
      else if containsSubstr (strChars "#endif") l then
        if stack.length = 1 then (stack, true, false) else (stack.tail, false, false)
      else if containsSubstr (strChars "#else") l then
        if stack.length < 2 then (stack, true, false)
        else if stack.getD 1 false then ((!stack.headD false) :: stack.tail, false, false)
        else (stack, false, false)
      else if stack.headD false then (stack, false, true)
      else (stack, false, false)

/-- The whole preprocessor pass: initial stack `[true]`, fold `ppStep` over
the (trimmed) lines, collecting the lines handed to `ExpandPermutations`. -/
def ppRun (defines : List String) (lines : List String) : List Bool × List String :=
  lines.foldl
    (fun acc line =>
      let r := ppStep defines acc.1 line
      (r.1, acc.2 ++ if r.2.2 then [line] else []))
    ([true], [])

/-! ### `ExeCompile` optimization-level table -/

/-- `optimizationLevelRemap` in `ExeCompile`. -/
def optimizationLevelRemap : List String := [" -Od", " -O1", " -O2", " -O3"]

/-! ## Claim theorems -/

/-- C10: every task the planner produces has a resolved optimization level of
at most `3`: a per-line `-O` value greater than `3` (other than the inherit
sentinel `0xFF`) is clamped to `3`, so the four-entry
`optimizationLevelRemap` lookup table of the external-process backend is
always indexed in bounds. -/
theorem c10_optimization_clamp :
    (∀ g l, resolveOptimizationLevel g l < optimizationLevelRemap.length
      ∧ (l ≠ USE_GLOBAL_OPTIMIZATION_LEVEL → 3 < l → resolveOptimizationLevel g l = 3))
    ∧ (∀ szHash o cl outFS dirFS hier cfgT st st' t,
        processConfigLine szHash o cl outFS dirFS hier cfgT st = some st' →
        t ∈ st'.tasks →
        t ∈ st.tasks ∨ t.optimizationLevel < optimizationLevelRemap.length) := by
  constructor
  · intro g l
    constructor
    · simp only [resolveOptimizationLevel, optimizationLevelRemap, List.length]
      omega
    · intro _ h3
      simp only [resolveOptimizationLevel]
      split <;> omega
  · intro szHash o cl outFS dirFS hier cfgT st st' t hp hm
    have htask : t ∈ (addTask szHash o cl st).tasks →
        t ∈ st.tasks ∨ t.optimizationLevel < optimizationLevelRemap.length := by
      intro hm2
      simp only [addTask, List.mem_append, List.mem_singleton] at hm2
      rcases hm2 with h | h
      · exact Or.inl h
      · right
        subst h
        simp only [taskOf, resolveOptimizationLevel, optimizationLevelRemap, List.length]
        omega
    simp only [processConfigLine] at hp
    split at hp
    · cases Option.some.inj hp; exact Or.inl hm
    · split at hp
      · cases Option.some.inj hp; exact htask hm
      · split at hp
        · exact absurd hp (by simp)
        · split at hp
          · cases Option.some.inj hp; exact Or.inl hm
          · cases Option.some.inj hp; exact htask hm

/-- C10 witness: a line-level `-O 7` resolves to `3`, in bounds for the
four-entry remap table. -/
theorem c10_optimization_clamp_witness :
    (7 : Nat) ≠ USE_GLOBAL_OPTIMIZATION_LEVEL ∧ resolveOptimizationLevel 2 7 = 3 :=
  ⟨by decide, (c10_optimization_clamp.1 2 7).2 (by decide) (by decide)⟩

/-- C5: in the external-process backend, a child exit status of `0` is a
success; a status of `-1` with `errno == ECHILD`, or on POSIX a shell exit
code of `127`, is transient — with retry budget `> 0` the task is re-pushed
and the budget decremented by one, otherwise it is a hard failure; any other
nonzero status is a hard failure and never consumes retry budget. -/
theorem c5_exe_retry_classification (posix : Bool) (result : Int) (echild : Bool)
    (rc : Int) (cont : Bool) (td : TaskData) (s : PoolState) :
    (result = 0 → classifyExeResult posix result echild rc = (true, false))
    ∧ (((result = -1 ∧ echild = true) ∨
          (posix = true ∧ wifexited result = true ∧ wexitstatus result = 127)) →
        (0 < rc →
            classifyExeResult posix result echild rc = (false, true)
            ∧ updateProgress cont td false true s =
                { s with taskQueue := s.taskQueue ++ [td], retryCount := s.retryCount - 1 })
        ∧ (rc ≤ 0 → classifyExeResult posix result echild rc = (false, false)))
    ∧ (result ≠ 0 →
        ¬((result = -1 ∧ echild = true) ∨
          (posix = true ∧ wifexited result = true ∧ wexitstatus result = 127)) →
        classifyExeResult posix result echild rc = (false, false)
        ∧ (updateProgress cont td false false s).retryCount = s.retryCount
        ∧ (updateProgress cont td false false s).failedCount = s.failedCount + 1
        ∧ (updateProgress cont td false false s).taskQueue = s.taskQueue) := by
  have hclass : result ≠ 0 → classifyExeResult posix result echild rc =
      (false, decide (0 < rc) && ((decide (result = -1) && echild) ||
        (if posix then wifexited result && decide (wexitstatus result = 127)
         else false))) := by
    intro hne
    simp only [classifyExeResult]
    rw [if_neg hne]
    cases hb : (decide (0 < rc) && ((decide (result = -1) && echild) ||
        (if posix then wifexited result && decide (wexitstatus result = 127)
         else false)))
    · simp
    · simp
  refine ⟨?_, ?_, ?_⟩
  · intro h0
    simp [classifyExeResult, h0]
  · intro htrans
    have hne : result ≠ 0 := by
      rcases htrans with ⟨h1, _⟩ | ⟨_, _, h127⟩
      · omega
      · intro h0
        rw [h0] at h127
        exact absurd h127 (by decide)
    have hcond : ((decide (result = -1) && echild) ||
        (if posix then wifexited result && decide (wexitstatus result = 127)
         else false)) = true := by
      rcases htrans with ⟨h1, h2⟩ | ⟨h1, h2, h3⟩
      · simp [h1, h2]
      · simp [h1, h2, h3]
    constructor
    · intro hrc
      refine ⟨?_, by simp [updateProgress]⟩
      rw [hclass hne, hcond]
      simp [hrc]
    · intro hrc
      rw [hclass hne]
      have hd : decide (0 < rc) = false := by simp only [decide_eq_false_iff_not]; omega
      rw [hd]
      simp
  · intro hne htrans
    have hchild : (decide (result = -1) && echild) = false := by
      by_contra hx
      simp only [Bool.not_eq_false, Bool.and_eq_true, decide_eq_true_eq] at hx
      exact htrans (Or.inl ⟨hx.1, hx.2⟩)
    have hshell : (if posix then wifexited result && decide (wexitstatus result = 127)
        else false) = false := by
      by_cases hpx : posix = true
      · rw [if_pos hpx]
        by_contra hx
        simp only [Bool.not_eq_false, Bool.and_eq_true, decide_eq_true_eq] at hx
        exact htrans (Or.inr ⟨hpx, hx.1, hx.2⟩)
      · rw [if_neg hpx]
    refine ⟨?_, by simp [updateProgress], by simp [updateProgress], by simp [updateProgress]⟩
    rw [hclass hne, hchild, hshell]
    simp

/-- C5 witness: a `-1`/`ECHILD` result with budget `5` is classified as a
retry, and the retry effect re-pushes the task and decrements the budget. -/
theorem c5_exe_retry_classification_witness :
    classifyExeResult true (-1) true 5 = (false, true)
    ∧ updateProgress false ⟨[], "a", "main", "ps", "out/a", "", 3⟩ false true
        ⟨[], 5, 0, 0, false⟩ = ⟨[⟨[], "a", "main", "ps", "out/a", "", 3⟩], 4, 0, 0, false⟩ := by
  have h := (c5_exe_retry_classification true (-1) true 5 false
      ⟨[], "a", "main", "ps", "out/a", "", 3⟩ ⟨[], 5, 0, 0, false⟩).2.1
      (Or.inl ⟨rfl, rfl⟩) |>.1 (by decide)
  exact ⟨h.1, by rw [h.2]; rfl⟩

/-- Example option set: DXIL target, binary-blob output only, no
continue-on-error. -/
def exBlobOpts : Options :=
  { platform := .DXIL, outputDir := "out", outputExt := ".dxil",
    optimizationLevel := 3, binary := false, header := false, binaryBlob := true,
    headerBlob := false, force := false, flatten := false, pdb := false,
    continueOnError := false }

/-- C8 counterexample: a run where planning succeeded, no task failed and the
terminate flag was never set still exits with `1`, because the blob loop
aborts on a group holding an empty-defines entry next to another entry.  The
claimed "exit 0 iff planning ok ∧ no failed task ∧ not terminated" is
therefore false. -/
theorem c8_blob_abort_exit :
    mainExitCode true false false 0 exBlobOpts (fun _ _ => true)
      [("out/b", [⟨"out/b", ""⟩, ⟨"out/b_0123ABCD", "M=1"⟩])] = 1 := by decide

/-- C8 amended: the exit code is `0` iff planning succeeded, no task failed,
the terminate flag was never set, and additionally the blob-assembly loop
completed (it is skipped when the task set is empty; it aborts on an invalid
group or a blob write failure without continue-on-error). -/
theorem c8_exit_code_iff (planOk tasksEmpty terminate : Bool) (failed : Nat)
    (o : Options) (bw : String → Bool → Bool)
    (blobs : List (String × List BlobEntry)) :
    mainExitCode planOk tasksEmpty terminate failed o bw blobs = 0 ↔
      (planOk = true ∧ terminate = false ∧ failed = 0 ∧
        (tasksEmpty = true ∨ (dumpBlobs o bw blobs).completed = true)) := by
  cases planOk <;> cases tasksEmpty <;> cases terminate <;>
    cases hc : (dumpBlobs o bw blobs).completed <;>
      simp [mainExitCode, hc]

/-- C6: in the blob loop, a group with exactly one entry whose combined
defines are empty is skipped silently (no write, no diagnostic); a group
containing an empty-defines entry alongside at least one other entry emits a
diagnostic naming the shader base name (`fs::path(blobName).stem()`), is
skipped when continue-on-error is set, and otherwise aborts the run, which
then exits with status `1`. -/
theorem c6_blob_group_validation (o : Options) (bw : String → Bool → Bool)
    (name : String) (es : List BlobEntry) (rest : List (String × List BlobEntry))
    (e : BlobEntry) :
    (es = [e] → e.combinedDefines = "" →
      dumpBlobs o bw ((name, es) :: rest) = dumpBlobs o bw rest)
    ∧ (e ∈ es → e.combinedDefines = "" → 2 ≤ es.length →
        pathStem name ∈ (dumpBlobs o bw ((name, es) :: rest)).diags
        ∧ (o.continueOnError = true →
            dumpBlobs o bw ((name, es) :: rest) =
              ⟨(dumpBlobs o bw rest).completed,
                pathStem name :: (dumpBlobs o bw rest).diags,
                (dumpBlobs o bw rest).writes⟩)
        ∧ (o.continueOnError = false →
            dumpBlobs o bw ((name, es) :: rest) = ⟨false, [pathStem name], []⟩
            ∧ mainExitCode true false false 0 o bw ((name, es) :: rest) = 1)) := by
  constructor
  · intro hes he
    subst hes
    simp [dumpBlobs, he]
  · intro hmem hemp hlen
    have hc1 : (es.length == 1 && (es.headD ⟨"", ""⟩).combinedDefines == "") = false := by
      have : es.length ≠ 1 := by omega
      simp [this]
    have hc2 : es.any (fun x => x.combinedDefines == "") = true :=
      List.any_eq_true.mpr ⟨e, hmem, by simp [hemp]⟩
    have hmain : dumpBlobs o bw ((name, es) :: rest) =
        (if o.continueOnError then
          ⟨(dumpBlobs o bw rest).completed,
            pathStem name :: (dumpBlobs o bw rest).diags,
            (dumpBlobs o bw rest).writes⟩
        else ⟨false, [pathStem name], []⟩) := by
      simp only [dumpBlobs]
      rw [if_neg (by simp_all), if_pos (by simp_all)]
    refine ⟨?_, ?_, ?_⟩
    · rw [hmain]
      split <;> simp
    · intro hco
      rw [hmain, if_pos hco]
    · intro hco
      constructor
      · rw [hmain, if_neg (by simp [hco])]
      · have hcomp : (dumpBlobs o bw ((name, es) :: rest)).completed = false := by
          rw [hmain, if_neg (by simp [hco])]
        simp [mainExitCode, hcomp]

/-- C6 witness: a two-entry group with one empty-defines entry under
`--continue` is diagnosed with the base name and skipped; without
`--continue` the run exits `1`; a singleton empty-defines group is silent. -/
theorem c6_blob_group_validation_witness :
    (⟨"out/b", ""⟩ : BlobEntry) ∈ [(⟨"out/b", ""⟩ : BlobEntry), ⟨"out/b_00000001", "M=1"⟩]
    ∧ dumpBlobs exBlobOpts (fun _ _ => true)
        [("out/b", [⟨"out/b", ""⟩, ⟨"out/b_00000001", "M=1"⟩])] = ⟨false, ["b"], []⟩ := by
  have h := (c6_blob_group_validation exBlobOpts (fun _ _ => true) "out/b"
      [⟨"out/b", ""⟩, ⟨"out/b_00000001", "M=1"⟩] [] ⟨"out/b", ""⟩).2
      (by decide) rfl (by decide)
  refine ⟨by decide, ?_⟩
  have h2 := (h.2.2 rfl).1
  rw [h2]
  have : pathStem "out/b" = "b" := by decide
  rw [this]

/-- C7 counterexample: on stack `[false, false]` (depth 2, parent entry
false) the `#else` directive neither inverts the top nor emits a diagnostic —
the state is returned unchanged — whereas the claim requires a diagnostic
whenever it is not the case that depth ≥ 2 and the parent is true. -/
theorem c7_else_no_diagnostic :
    ppStep [] [false, false] "#else" = ([false, false], false, false) := by decide

/-- Helper for the `#ifdef` name extraction on a line of the shape
`"#ifdef " ++ name` with `name` starting with a non-space character. -/
theorem ifdefDefine_extract (c : Char) (cs : List Char) (hc : c ≠ ' ') :
    ifdefDefine ('#' :: 'i' :: 'f' :: 'd' :: 'e' :: 'f' :: ' ' :: c :: cs) 0 = c :: cs := by
  have h1 : findIdxNotSpace (' ' :: c :: cs) = some 1 := by
    simp only [findIdxNotSpace]
    rw [if_neg (by simp), if_pos hc]
    rfl
  simp only [ifdefDefine]
  rw [show ('#' :: 'i' :: 'f' :: 'd' :: 'e' :: 'f' :: ' ' :: c :: cs).drop (0 + 6) =
        ' ' :: c :: cs from rfl]
  rw [h1]
  rfl

/-- C7 amended: the config preprocessor starts from the stack `[true]`;
`#ifdef NAME` pushes (top ∧ NAME ∈ global defines); `#if 1` pushes the top;
`#if 0` pushes `false`; `#endif` pops, with a diagnostic when already at
depth 1; `#else` inverts the top when depth ≥ 2 and the parent entry is true,
emits a diagnostic when the depth is less than 2, and — correcting the claim
— does nothing and emits no diagnostic when the depth is ≥ 2 but the parent
entry is false; a non-directive, non-empty, non-comment line is expanded
exactly when the stack top is true. -/
theorem c7_preprocessor_table (d : List String) (top : Bool) (rest : List Bool) :
    (ppRun d [] = ([true], []))
    ∧ (∀ c cs, c ≠ ' ' →
        ppStep d (top :: rest) ("#ifdef " ++ charsStr (c :: cs)) =
          ((top && decide (charsStr (c :: cs) ∈ d)) :: top :: rest, false, false))
    ∧ ppStep d (top :: rest) "#if 1" = (top :: top :: rest, false, false)
    ∧ ppStep d (top :: rest) "#if 0" = (false :: top :: rest, false, false)
    ∧ (∀ b, ppStep d (top :: b :: rest) "#endif" = (b :: rest, false, false))
    ∧ ppStep d [top] "#endif" = ([top], true, false)
    ∧ ppStep d (top :: true :: rest) "#else" = ((!top) :: true :: rest, false, false)
    ∧ ppStep d [top] "#else" = ([top], true, false)
    ∧ ppStep d (top :: false :: rest) "#else" = (top :: false :: rest, false, false)
    ∧ (∀ line : String, line ≠ "" →
        ¬((strChars line).headD ' ' = '/' ∧ ((strChars line).drop 1).headD ' ' = '/') →
        findSubstrIdx (strChars "#ifdef") (strChars line) = none →
        containsSubstr (strChars "#if 1") (strChars line) = false →
        containsSubstr (strChars "#if 0") (strChars line) = false →
        containsSubstr (strChars "#endif") (strChars line) = false →
        containsSubstr (strChars "#else") (strChars line) = false →
        ppStep d (top :: rest) line = (top :: rest, false, top)) := by
  refine ⟨rfl, ?_, rfl, rfl, fun b => rfl, rfl, rfl, rfl, rfl, ?_⟩
  · intro c cs hc
    have hdef := ifdefDefine_extract c cs hc
    show ((top && decide (charsStr
        (ifdefDefine (strChars ("#ifdef " ++ charsStr (c :: cs))) 0) ∈ d))
        :: top :: rest, false, false) = _
    rw [show strChars ("#ifdef " ++ charsStr (c :: cs)) =
          '#' :: 'i' :: 'f' :: 'd' :: 'e' :: 'f' :: ' ' :: c :: cs from rfl]
    rw [hdef]
  · intro line hne hcomment hifdef hif1 hif0 hendif helse
    simp only [ppStep]
    rw [if_neg hne, if_neg hcomment, hifdef]
    rw [hif1, hif0, hendif, helse]
    simp only [Bool.false_eq_true, if_false, List.headD_cons]
    cases top
    · rw [if_neg (by simp)]
    · rw [if_pos rfl]

/-- C7 witness: `#ifdef FOO` on stack `[true]` with `FOO` defined pushes
`true`. -/
theorem c7_preprocessor_table_witness :
    ('F' : Char) ≠ ' '
    ∧ ppStep ["FOO"] [true] "#ifdef FOO" = ([true, true], false, false) := by
  have h := (c7_preprocessor_table ["FOO"] true []).2.1 'F' ['O', 'O'] (by decide)
  exact ⟨by decide, h.trans (by decide)⟩

/-- Example option set for the flatten collision: DXIL, `--binary`,
`--flatten`. -/
def exFlattenOpts : Options :=
  { platform := .DXIL, outputDir := "out", outputExt := ".dxil",
    optimizationLevel := 3, binary := true, header := false, binaryBlob := false,
    headerBlob := false, force := false, flatten := true, pdb := false,
    continueOnError := false }

def exLineA : ConfigLine := ⟨[], "a/x.hlsl", "main", "vs", none, USE_GLOBAL_OPTIMIZATION_LEVEL⟩

def exLineB : ConfigLine := ⟨[], "b/x.hlsl", "main", "vs", none, USE_GLOBAL_OPTIMIZATION_LEVEL⟩

/-- C9 counterexample: with `--flatten`, the two lines `a/x.hlsl -T vs` and
`b/x.hlsl -T vs` (both with empty defines) plan two distinct tasks whose
output paths without extension are both `out/x` — the claimed uniqueness of
the output path across the planned set fails. -/
theorem c9_output_path_collision :
    ((processConfigLine (fun _ => 0) exFlattenOpts exLineA (fun _ => none) (fun _ => true)
        none 0 ⟨[], []⟩).bind
      (processConfigLine (fun _ => 0) exFlattenOpts exLineB (fun _ => none) (fun _ => true)
        none 0)).map
      (fun st => (st.tasks.map (fun t => t.outputFileWithoutExt),
        st.tasks.map (fun t => t.source)))
    = some (["out/x", "out/x"], ["a/x.hlsl", "b/x.hlsl"]) := by decide

theorem hexDigit_inj_fin : ∀ a b : Fin 16, hexDigit a.val = hexDigit b.val → a = b := by decide

theorem hexDigit_inj {a b : Nat} (ha : a < 16) (hb : b < 16)
    (h : hexDigit a = hexDigit b) : a = b :=
  congrArg Fin.val (hexDigit_inj_fin ⟨a, ha⟩ ⟨b, hb⟩ h)

theorem hex8_inj {a b : Nat} (ha : a < 2 ^ 32) (hb : b < 2 ^ 32)
    (h : hex8 a = hex8 b) : a = b := by
  have hd : [hexDigit (a / 16 ^ 7 % 16), hexDigit (a / 16 ^ 6 % 16),
      hexDigit (a / 16 ^ 5 % 16), hexDigit (a / 16 ^ 4 % 16),
      hexDigit (a / 16 ^ 3 % 16), hexDigit (a / 16 ^ 2 % 16),
      hexDigit (a / 16 % 16), hexDigit (a % 16)] =
      [hexDigit (b / 16 ^ 7 % 16), hexDigit (b / 16 ^ 6 % 16),
      hexDigit (b / 16 ^ 5 % 16), hexDigit (b / 16 ^ 4 % 16),
      hexDigit (b / 16 ^ 3 % 16), hexDigit (b / 16 ^ 2 % 16),
      hexDigit (b / 16 % 16), hexDigit (b % 16)] := by
    have := congrArg String.data h
    simpa [hex8, charsStr] using this
  simp only [List.cons.injEq, and_true] at hd
  obtain ⟨h7, h6, h5, h4, h3, h2, h1, h0⟩ := hd
  have l16 : ∀ x : Nat, x % 16 < 16 := fun x => Nat.mod_lt _ (by norm_num)
  have e7 := hexDigit_inj (l16 _) (l16 _) h7
  have e6 := hexDigit_inj (l16 _) (l16 _) h6
  have e5 := hexDigit_inj (l16 _) (l16 _) h5
  have e4 := hexDigit_inj (l16 _) (l16 _) h4
  have e3 := hexDigit_inj (l16 _) (l16 _) h3
  have e2 := hexDigit_inj (l16 _) (l16 _) h2
  have e1 := hexDigit_inj (l16 _) (l16 _) h1
  have e0 := hexDigit_inj (l16 _) (l16 _) h0
  have p7 : (16 : Nat) ^ 7 = 268435456 := by norm_num
  have p6 : (16 : Nat) ^ 6 = 16777216 := by norm_num
  have p5 : (16 : Nat) ^ 5 = 1048576 := by norm_num
  have p4 : (16 : Nat) ^ 4 = 65536 := by norm_num
  have p3 : (16 : Nat) ^ 3 = 4096 := by norm_num
  have p2 : (16 : Nat) ^ 2 = 256 := by norm_num
  have p32 : (2 : Nat) ^ 32 = 4294967296 := by norm_num
  rw [p7] at e7
  rw [p6] at e6
  rw [p5] at e5
  rw [p4] at e4
  rw [p3] at e3
  rw [p2] at e2
  rw [p32] at ha hb
  omega

/-- `HashToUint` always yields a 32-bit value. -/
theorem HashToUint_lt (h : Nat) : HashToUint h < 2 ^ 32 :=
  Nat.xor_lt_two_pow (Nat.mod_lt _ (by norm_num)) (Nat.mod_lt _ (by norm_num))

/-- C9 amended: output names are not unique unconditionally (see the flatten
collision above, and nothing rules out 32-bit hash collisions).  What does
hold: for two lines with the same shader name, the permutation names differ
whenever exactly one define list is empty, or both are non-empty and the
32-bit folded hashes of their combined-defines strings differ. -/
theorem c9_permutation_name_distinct (szHash : String → Nat) (s : String)
    (d1 d2 : List String) :
    (d1 = [] → d2 ≠ [] →
      permutationNameCore szHash s d1 ≠ permutationNameCore szHash s d2)
    ∧ (d1 ≠ [] → d2 ≠ [] →
        HashToUint (szHash (combinedDefinesOf d1)) ≠
          HashToUint (szHash (combinedDefinesOf d2)) →
        permutationNameCore szHash s d1 ≠ permutationNameCore szHash s d2) := by
  constructor
  · intro h1 h2 heq
    simp only [permutationNameCore, h1, List.isEmpty_nil, if_true,
      List.isEmpty_eq_true] at heq
    rw [if_neg h2] at heq
    have hlen := congrArg (fun x => x.data.length) heq
    simp only [String.data_append, List.length_append] at hlen
    have h8 : (hex8 (HashToUint (szHash (combinedDefinesOf d2)))).data.length = 8 := rfl
    have h1' : ("_" : String).data.length = 1 := rfl
    omega
  · intro h1 h2 hh heq
    simp only [permutationNameCore, List.isEmpty_eq_true] at heq
    rw [if_neg h1, if_neg h2] at heq
    have hd := congrArg String.data heq
    simp only [String.data_append] at hd
    have hx := List.append_cancel_left hd
    exact hh (hex8_inj (HashToUint_lt _) (HashToUint_lt _) (String.ext hx))

/-- C9 witness: with distinct folded hashes the two permutation names carry
distinct hash suffixes. -/
theorem c9_permutation_name_distinct_witness :
    (["A=1"] : List String) ≠ [] ∧ (["B=1"] : List String) ≠ []
    ∧ permutationNameCore (fun x => if x = "A=1" then 1 else 2) "x" ["A=1"] ≠
        permutationNameCore (fun x => if x = "A=1" then 1 else 2) "x" ["B=1"] :=
  ⟨by decide, by decide,
    (c9_permutation_name_distinct (fun x => if x = "A=1" then 1 else 2) "x"
      ["A=1"] ["B=1"]).2 (by decide) (by decide) (by decide)⟩

def exLineD : ConfigLine := ⟨["M=1"], "s.hlsl", "main", "ps", none, USE_GLOBAL_OPTIMIZATION_LEVEL⟩

/-- C1: evaluation at the failing input.  With `--binaryBlob` requested and
the blob output `out/s.dxil` newer (lwt 10) than the source side (time 1),
the line is skipped as up-to-date and `ProcessConfigLine` returns with the
blob registry untouched — the early `return true` of the freshness check
precedes the "Gather blobs" block, so no entry
`("out/s", ("out/s_00000000", "M=1"))` is registered, contradicting the
claimed unconditional registration.  The third conjunct shows the same line
does register its entry when it is planned (stale output, lwt 1 < time 5). -/
theorem c1_blob_registration_skipped_eval :
    Options.IsBlob exBlobOpts = true
    ∧ processConfigLine (fun _ => 0) exBlobOpts exLineD
        (fun f => if f = "out/s.dxil" then some 10 else none) (fun _ => true)
        (some 1) 1 ⟨[], []⟩ = some ⟨[], []⟩
    ∧ processConfigLine (fun _ => 0) exBlobOpts exLineD
        (fun f => if f = "out/s.dxil" then some 1 else none) (fun _ => true)
        (some 5) 1 ⟨[], []⟩ =
      some ⟨[taskOf (fun _ => 0) exBlobOpts exLineD],
        [("out/s", [⟨"out/s_00000000", "M=1"⟩])]⟩ := by decide

/-! ### Freshness-check lemmas (C4) -/

/-- The last-write-times of the existing requested output files. -/
def reqLwts (outFS : String → Option Nat) (l : List (Bool × String)) : List Nat :=
  l.filterMap (fun p => if p.1 then outFS p.2 else none)

/-- Minimum of a list of times (`0` for the empty list). -/
def minList : List Nat → Nat
  | [] => 0
  | a :: l => l.foldl min a

theorem freshFold_forced (outFS : String → Option Nat) :
    ∀ (L : List (Bool × String)) (t : Nat),
      L.foldl (freshStep outFS) (true, t) = (true, t) := by
  intro L
  induction L with
  | nil => intro t; rfl
  | cons p rest ih =>
    intro t
    obtain ⟨req, file⟩ := p
    have hstep : freshStep outFS (true, t) (req, file) = (true, t) := by
      rcases req with _ | _ <;> rcases hf : outFS file <;> simp [freshStep, hf]
    rw [List.foldl_cons, hstep, ih]

theorem freshFold_missing (outFS : String → Option Nat) :
    ∀ (L : List (Bool × String)) (b : Bool) (t : Nat),
      (∃ p ∈ L, p.1 = true ∧ outFS p.2 = none) →
      (L.foldl (freshStep outFS) (b, t)).1 = true := by
  intro L
  induction L with
  | nil => intro b t h; simp at h
  | cons p rest ih =>
    intro b t hmiss
    obtain ⟨req, file⟩ := p
    rw [List.foldl_cons]
    by_cases hhere : req = true ∧ outFS file = none
    · have hstep : freshStep outFS (b, t) (req, file) = (true, t) := by
        simp [freshStep, hhere.1, hhere.2]
      rw [hstep, freshFold_forced]
    · rcases hmiss with ⟨q, hq, hq1, hq2⟩
      rcases List.mem_cons.mp hq with rfl | hqr
      · exact absurd ⟨hq1, hq2⟩ hhere
      · rcases hstep : freshStep outFS (b, t) (req, file) with ⟨b2, t2⟩
        exact ih b2 t2 ⟨q, hqr, hq1, hq2⟩

theorem freshFold_min (outFS : String → Option Nat) :
    ∀ (L : List (Bool × String)) (t0 : Nat), t0 ≠ 0 →
      (∀ p ∈ L, p.1 = true → ∃ t, outFS p.2 = some t ∧ t ≠ 0) →
      L.foldl (freshStep outFS) (false, t0) = (false, (reqLwts outFS L).foldl min t0) := by
  intro L
  induction L with
  | nil => intro t0 _ _; rfl
  | cons p rest ih =>
    intro t0 ht0 hex
    obtain ⟨req, file⟩ := p
    rcases req with _ | _
    · have hstep : freshStep outFS (false, t0) (false, file) = (false, t0) := by
        simp [freshStep]
      rw [List.foldl_cons, hstep, ih t0 ht0 (fun q hq => hex q (List.mem_cons_of_mem _ hq))]
      rfl
    · obtain ⟨t, hft, htne⟩ := hex (true, file) (List.mem_cons_self _ _) rfl
      have hstep : freshStep outFS (false, t0) (true, file) = (false, min t0 t) := by
        simp [freshStep, hft, ht0]
      rw [List.foldl_cons, hstep,
        ih (min t0 t) (by omega) (fun q hq => hex q (List.mem_cons_of_mem _ hq))]
      have : reqLwts outFS ((true, file) :: rest) = t :: reqLwts outFS rest := by
        simp [reqLwts, hft]
      rw [this, List.foldl_cons]

theorem freshFold_min0 (outFS : String → Option Nat) :
    ∀ (L : List (Bool × String)),
      (∀ p ∈ L, p.1 = true → ∃ t, outFS p.2 = some t ∧ t ≠ 0) →
      L.foldl (freshStep outFS) (false, 0) = (false, minList (reqLwts outFS L)) := by
  intro L
  induction L with
  | nil => intro _; rfl
  | cons p rest ih =>
    intro hex
    obtain ⟨req, file⟩ := p
    rcases req with _ | _
    · have hstep : freshStep outFS (false, 0) (false, file) = (false, 0) := by
        simp [freshStep]
      rw [List.foldl_cons, hstep, ih (fun q hq => hex q (List.mem_cons_of_mem _ hq))]
      rfl
    · obtain ⟨t, hft, htne⟩ := hex (true, file) (List.mem_cons_self _ _) rfl
      have hstep : freshStep outFS (false, 0) (true, file) = (false, t) := by
        simp [freshStep, hft]
      rw [List.foldl_cons, hstep,
        freshFold_min outFS rest t htne (fun q hq => hex q (List.mem_cons_of_mem _ hq))]
      have : reqLwts outFS ((true, file) :: rest) = t :: reqLwts outFS rest := by
        simp [reqLwts, hft]
      rw [this]
      rfl

/-- C4: with force not in effect (no global `--force`, no directory created)
and every required output present with a nonzero (non-sentinel) timestamp,
the task is skipped exactly when the minimum output time is strictly greater
than `max(hierarchical source time, config/self time)`; and whenever a
required output is missing, or the output directory had to be created, the
task is planned regardless of any times. -/
theorem c4_freshness_skip (szHash : String → Nat) (o : Options) (cl : ConfigLine)
    (outFS : String → Option Nat) (dirFS : String → Bool) (h cfgT : Nat)
    (st : PlanState) (hskip : dxbcSkip o cl = false)
    (hforce : planForce0 o cl dirFS = false) :
    ((∀ p ∈ requiredOutputs szHash o cl, p.1 = true → ∃ t, outFS p.2 = some t ∧ t ≠ 0) →
      reqLwts outFS (requiredOutputs szHash o cl) ≠ [] →
      (processConfigLine szHash o cl outFS dirFS (some h) cfgT st = some st ↔
        max h cfgT < minList (reqLwts outFS (requiredOutputs szHash o cl))))
    ∧ (∀ outFS2 hier2,
        (∃ p ∈ requiredOutputs szHash o cl, p.1 = true ∧ outFS2 p.2 = none) →
        processConfigLine szHash o cl outFS2 dirFS hier2 cfgT st =
          some (addTask szHash o cl st))
    ∧ (∀ outFS2 (dirFS2 : String → Bool) hier2, o.force = false →
        endPathOf o cl ≠ "" → dirFS2 (endPathOf o cl) = false →
        processConfigLine szHash o cl outFS2 dirFS2 hier2 cfgT st =
          some (addTask szHash o cl st)) := by
  have hlen : st.tasks.length ≠ (addTask szHash o cl st).tasks.length := by
    simp [addTask]
  refine ⟨?_, ?_, ?_⟩
  · intro hex hne
    have hfr : freshResult szHash o cl outFS dirFS =
        (false, minList (reqLwts outFS (requiredOutputs szHash o cl))) := by
      simp only [freshResult, hforce]
      exact freshFold_min0 outFS _ hex
    constructor
    · intro heq
      by_contra hlt
      have hpl : processConfigLine szHash o cl outFS dirFS (some h) cfgT st =
          some (addTask szHash o cl st) := by
        simp only [processConfigLine, hskip, hfr]
        simp [hlt]
      rw [hpl] at heq
      exact hlen (congrArg (fun s => s.tasks.length) (Option.some.inj heq)).symm
    · intro hlt
      simp only [processConfigLine, hskip, hfr]
      simp [hlt]
  · intro outFS2 hier2 hmiss
    have hfr : (freshResult szHash o cl outFS2 dirFS).1 = true := by
      simp only [freshResult, hforce]
      exact freshFold_missing outFS2 _ false 0 hmiss
    simp only [processConfigLine, hskip]
    simp [hfr]
  · intro outFS2 dirFS2 hier2 ho hne hdir
    have hp : planForce0 o cl dirFS2 = true := by
      simp [planForce0, ho, hne, hdir]
    have hfr : freshResult szHash o cl outFS2 dirFS2 = (true, 0) := by
      simp only [freshResult, hp]
      exact freshFold_forced outFS2 _ 0
    simp only [processConfigLine, hskip]
    simp [hfr]

/-- C4 witness: for the blob-only line with its blob output at time 10 and
source side at time 1, the planner skips; with the blob output missing, the
planner plans regardless. -/
theorem c4_freshness_skip_witness :
    dxbcSkip exBlobOpts exLineD = false
    ∧ processConfigLine (fun _ => 0) exBlobOpts exLineD
        (fun f => if f = "out/s.dxil" then some 10 else none) (fun _ => true)
        (some 1) 1 ⟨[], []⟩ = some ⟨[], []⟩
    ∧ processConfigLine (fun _ => 0) exBlobOpts exLineD
        (fun _ => none) (fun _ => true) none 1 ⟨[], []⟩ =
      some (addTask (fun _ => 0) exBlobOpts exLineD ⟨[], []⟩) := by
  have hc := c4_freshness_skip (fun _ => 0) exBlobOpts exLineD
    (fun f => if f = "out/s.dxil" then some 10 else none) (fun _ => true) 1 1 ⟨[], []⟩
    (by decide) (by decide)
  refine ⟨by decide, ?_, ?_⟩
  · refine (hc.1 ?_ (by decide)).mpr (by decide)
    intro p hp hreq
    rw [show requiredOutputs (fun _ => 0) exBlobOpts exLineD =
        [(false, "out/s_00000000.dxil"), (false, "out/s_00000000.dxil.h"),
         (true, "out/s.dxil"), (false, "out/s.dxil.h")] from by decide] at hp
    fin_cases hp
    · exact absurd hreq (by decide)
    · exact absurd hreq (by decide)
    · exact ⟨10, by decide, by decide⟩
    · exact absurd hreq (by decide)
  · refine hc.2.1 (fun _ => none) none ⟨(true, "out/s.dxil"), ?_, rfl, rfl⟩
    rw [show requiredOutputs (fun _ => 0) exBlobOpts exLineD =
        [(false, "out/s_00000000.dxil"), (false, "out/s_00000000.dxil.h"),
         (true, "out/s.dxil"), (false, "out/s.dxil.h")] from by decide]
    decide

/-! ### Hierarchy-time oracle lemmas (C2, C3) -/

def emptyCtx : IncCtx := ⟨[], []⟩

/-- A file that includes itself. -/
def cycFS : SrcFS := [("d/A.h", ⟨3, ["#include \"A.h\""]⟩)]

/-- C3 counterexample: on the one-file cycle `d/A.h` → `d/A.h` the oracle
never completes — the memo entry for a file is written only after its
includes are fully processed, so a file reached again through its own
include chain is re-visited, not served from the memo, and the recursion
descends forever (each extra unit of fuel is consumed without progress). -/
theorem c3_cycle_divergence : ghutDiverges emptyCtx cycFS "d/A.h" := by
  intro fuel
  induction fuel with
  | zero => rfl
  | succ n ih =>
    show (match (match ghut emptyCtx cycFS n [] "d/A.h" with
        | .ok t m2 => ghutLinesAux emptyCtx cycFS
            (fun m f => ghut emptyCtx cycFS n m f) "d" m2 [] (max t 3)
        | r => r) with
      | .ok t m2 => GRes.ok t (("d/A.h", t) :: m2)
      | r => r) = .noFuel
    rw [ih]

theorem ghutLinesAux_ne_noFuel (C : IncCtx) (fs : SrcFS) (rec : Memo → String → GRes)
    (P : String → Prop) (hrec : ∀ m f, P f → rec m f ≠ .noFuel) :
    ∀ (lines : List String) (m : Memo) (dir : String) (acc : Nat),
      (∀ line ∈ lines, ∀ name i, lineIncName C line = some name →
        resolveName C fs dir name = some i → P i) →
      ghutLinesAux C fs rec dir m lines acc ≠ .noFuel := by
  intro lines
  induction lines with
  | nil => intro m dir acc _; simp [ghutLinesAux]
  | cons line rest ih =>
    intro m dir acc hP
    cases hinc : lineIncName C line with
    | none =>
      have he : ghutLinesAux C fs rec dir m (line :: rest) acc =
          ghutLinesAux C fs rec dir m rest acc := by
        simp only [ghutLinesAux, hinc]
      rw [he]
      exact ih m dir acc (fun l hl => hP l (List.mem_cons_of_mem _ hl))
    | some name =>
      cases hres : resolveName C fs dir name with
      | none =>
        have he : ghutLinesAux C fs rec dir m (line :: rest) acc = .fail := by
          simp only [ghutLinesAux, hinc, hres]
        rw [he]
        simp
      | some i =>
        have hPi : P i := hP line (List.mem_cons_self _ _) name i hinc hres
        cases hr : rec m i with
        | ok t m2 =>
          have he : ghutLinesAux C fs rec dir m (line :: rest) acc =
              ghutLinesAux C fs rec dir m2 rest (max t acc) := by
            simp only [ghutLinesAux, hinc, hres, hr]
          rw [he]
          exact ih m2 dir (max t acc) (fun l hl => hP l (List.mem_cons_of_mem _ hl))
        | fail =>
          have he : ghutLinesAux C fs rec dir m (line :: rest) acc = .fail := by
            simp only [ghutLinesAux, hinc, hres, hr]
          rw [he]
          simp
        | noFuel => exact absurd hr (hrec m i hPi)

/-- C3 amended: the oracle does terminate (never runs out of fuel) on an
acyclic include graph: whenever a rank function decreases across every
resolved, non-relaxed include edge, any fuel exceeding the rank of the
requested file suffices, from any memo.  (The counterexample above shows the
claim's "including cycles" part is false.) -/
theorem c3_acyclic_terminates (C : IncCtx) (fs : SrcFS) (rank : String → Nat)
    (hrank : ∀ f fd, assocFind fs f = some fd → ∀ line ∈ fd.lines, ∀ name i,
      lineIncName C line = some name → resolveName C fs (parentDir f) name = some i →
      rank i < rank f) :
    ∀ (fuel : Nat) (m : Memo) (f : String), rank f < fuel →
      ghut C fs fuel m f ≠ .noFuel := by
  intro fuel
  induction fuel with
  | zero => intro m f h; exact absurd h (Nat.not_lt_zero _)
  | succ n ih =>
    intro m f hrf
    simp only [ghut]
    cases hm : assocFind m f with
    | some t => simp
    | none =>
      cases hf : assocFind fs f with
      | none => simp
      | some fd =>
        have hlines := ghutLinesAux_ne_noFuel C fs (fun m2 f2 => ghut C fs n m2 f2)
          (fun f2 => rank f2 < n) (fun m2 f2 hp => ih m2 f2 hp)
          fd.lines m (parentDir f) fd.lwt
          (fun line hl name i hinc hres => by
            have := hrank f fd hf line hl name i hinc hres
            omega)
        cases hr : ghutLinesAux C fs (fun m2 f2 => ghut C fs n m2 f2)
            (parentDir f) m fd.lines fd.lwt with
        | ok t m2 => simp [hr]
        | fail => simp [hr]
        | noFuel => exact absurd hr hlines

def exAcyclicFS : SrcFS := [("s.hlsl", ⟨5, ["code"]⟩)]

/-- C3 witness: for a source file with no includes, rank `0` and fuel `1`
suffice: the oracle does not run out of fuel. -/
theorem c3_acyclic_terminates_witness :
    (0 : Nat) < 1 ∧ ghut emptyCtx exAcyclicFS 1 [] "s.hlsl" ≠ .noFuel := by
  refine ⟨by decide, ?_⟩
  refine c3_acyclic_terminates emptyCtx exAcyclicFS (fun _ => 0) ?_ 1 [] "s.hlsl" (by decide)
  intro f fd hfind line hl name i hinc hres
  simp only [exAcyclicFS, assocFind] at hfind
  split at hfind
  · injection hfind with h2
    subst h2
    simp only at hl
    simp at hl
    subst hl
    rw [show lineIncName emptyCtx "code" = none from by decide] at hinc
    cases hinc
  · cases hfind

theorem pureHTLinesAux_congr (C : IncCtx) (fs : SrcFS) (rec rec2 : String → Option Nat)
    (hrec : ∀ f t, rec f = some t → rec2 f = some t) :
    ∀ (lines : List String) (dir : String) (acc t : Nat),
      pureHTLinesAux C fs rec dir lines acc = some t →
      pureHTLinesAux C fs rec2 dir lines acc = some t := by
  intro lines
  induction lines with
  | nil => intro dir acc t h; exact h
  | cons line rest ih =>
    intro dir acc t h
    cases hinc : lineIncName C line with
    | none =>
      simp only [pureHTLinesAux, hinc] at h ⊢
      exact ih dir acc t h
    | some name =>
      cases hres : resolveName C fs dir name with
      | none =>
        simp only [pureHTLinesAux, hinc, hres] at h
        cases h
      | some incFile =>
        simp only [pureHTLinesAux, hinc, hres] at h ⊢
        cases hr : rec incFile with
        | none => rw [hr] at h; cases h
        | some ti =>
          rw [hr] at h
          rw [hrec incFile ti hr]
          exact ih dir (max ti acc) t h

theorem pureHT_mono (C : IncCtx) (fs : SrcFS) :
    ∀ (fuel : Nat) (f : String) (t : Nat),
      pureHT C fs fuel f = some t → pureHT C fs (fuel + 1) f = some t := by
  intro fuel
  induction fuel with
  | zero => intro f t h; cases h
  | succ n ih =>
    intro f t h
    simp only [pureHT] at h ⊢
    split at h
    next hf => cases h
    next fd hf =>
      exact pureHTLinesAux_congr C fs _ _ (fun f2 t2 => ih f2 t2)
        fd.lines (parentDir f) fd.lwt t h

theorem pureHT_mono_le (C : IncCtx) (fs : SrcFS) {fuel fuel2 : Nat} (hle : fuel ≤ fuel2) :
    ∀ (f : String) (t : Nat), pureHT C fs fuel f = some t → pureHT C fs fuel2 f = some t := by
  induction hle with
  | refl => exact fun f t h => h
  | step _ ih => exact fun f t h => pureHT_mono C fs _ f t (ih f t h)

/-- Every value stored in the oracle's memo is a value of the memo-free
reference recursion. -/
def memoOK (C : IncCtx) (fs : SrcFS) (m : Memo) : Prop :=
  ∀ p t, assocFind m p = some t → ∃ fl, pureHT C fs fl p = some t

theorem ghutLinesAux_sound (C : IncCtx) (fs : SrcFS) (rec : Memo → String → GRes)
    (hrec : ∀ m f t m2, memoOK C fs m → rec m f = .ok t m2 →
      memoOK C fs m2 ∧ ∃ fl, pureHT C fs fl f = some t) :
    ∀ (lines : List String) (m : Memo) (dir : String) (acc t : Nat) (m2 : Memo),
      memoOK C fs m → ghutLinesAux C fs rec dir m lines acc = .ok t m2 →
      memoOK C fs m2 ∧
        ∃ fl, pureHTLinesAux C fs (pureHT C fs fl) dir lines acc = some t := by
  intro lines
  induction lines with
  | nil =>
    intro m dir acc t m2 hm h
    simp only [ghutLinesAux] at h
    injection h with h1 h2
    subst h1 h2
    exact ⟨hm, 0, rfl⟩
  | cons line rest ih =>
    intro m dir acc t m2 hm h
    cases hinc : lineIncName C line with
    | none =>
      simp only [ghutLinesAux, hinc] at h
      obtain ⟨hm2, fl, hp⟩ := ih m dir acc t m2 hm h
      refine ⟨hm2, fl, ?_⟩
      simp only [pureHTLinesAux, hinc]
      exact hp
    | some name =>
      cases hres : resolveName C fs dir name with
      | none =>
        simp only [ghutLinesAux, hinc, hres] at h
        cases h
      | some incFile =>
        simp only [ghutLinesAux, hinc, hres] at h
        cases hr : rec m incFile with
        | fail => rw [hr] at h; cases h
        | noFuel => rw [hr] at h; cases h
        | ok ti mi =>
          rw [hr] at h
          obtain ⟨hmi, fl1, hp1⟩ := hrec m incFile ti mi hm hr
          obtain ⟨hm2, fl2, hp2⟩ := ih mi dir (max ti acc) t m2 hmi h
          refine ⟨hm2, max fl1 fl2, ?_⟩
          have hp1' : pureHT C fs (max fl1 fl2) incFile = some ti :=
            pureHT_mono_le C fs (Nat.le_max_left _ _) _ _ hp1
          have hp2' : pureHTLinesAux C fs (pureHT C fs (max fl1 fl2)) dir rest
              (max ti acc) = some t :=
            pureHTLinesAux_congr C fs _ _
              (fun f2 t2 => pureHT_mono_le C fs (Nat.le_max_right _ _) f2 t2)
              rest dir (max ti acc) t hp2
          simp only [pureHTLinesAux, hinc, hres, hp1']
          exact hp2'

theorem ghut_sound (C : IncCtx) (fs : SrcFS) :
    ∀ (fuel : Nat) (m : Memo) (f : String) (t : Nat) (m2 : Memo),
      memoOK C fs m → ghut C fs fuel m f = .ok t m2 →
      memoOK C fs m2 ∧ ∃ fl, pureHT C fs fl f = some t := by
  intro fuel
  induction fuel with
  | zero => intro m f t m2 _ h; cases h
  | succ n ih =>
    intro m f t m2 hm h
    simp only [ghut] at h
    split at h
    next t0 hmf =>
      injection h with h1 h2
      subst h1 h2
      exact ⟨hm, hm f t0 hmf⟩
    next hmf =>
      split at h
      next hf => cases h
      next fd hf =>
        split at h
        next t2 m3 hr =>
          injection h with h1 h2
          subst h1 h2
          obtain ⟨hm3, fl, hp⟩ := ghutLinesAux_sound C fs _
            (fun mm ff tt mm2 hmm hok => ih mm ff tt mm2 hmm hok)
            fd.lines m (parentDir f) fd.lwt t2 m3 hm hr
          have hfull : pureHT C fs (fl + 1) f = some t2 := by
            simp only [pureHT, hf]
            exact hp
          constructor
          · intro p tp hfind
            simp only [assocFind] at hfind
            split at hfind
            next heq =>
              injection hfind with he
              subst he
              exact ⟨fl + 1, heq ▸ hfull⟩
            next => exact hm3 p tp hfind
          · exact ⟨fl + 1, hfull⟩
        next r hr hne =>
          exact absurd h (hne _ _)

theorem pureHTLinesAux_forall2 (C : IncCtx) (fs : SrcFS) (rec : String → Option Nat) :
    ∀ (lines : List String) (dir : String) (acc t : Nat) (incs : List String),
      resolveLines C fs dir lines = some incs →
      pureHTLinesAux C fs rec dir lines acc = some t →
      ∃ ts, List.Forall₂ (fun i ti => rec i = some ti) incs ts ∧
        t = ts.foldl (fun a b => max b a) acc := by
  intro lines
  induction lines with
  | nil =>
    intro dir acc t incs hres hp
    simp only [resolveLines] at hres
    injection hres with h1
    subst h1
    injection hp with h2
    subst h2
    exact ⟨[], List.Forall₂.nil, rfl⟩
  | cons line rest ih =>
    intro dir acc t incs hres hp
    cases hinc : lineIncName C line with
    | none =>
      simp only [resolveLines, hinc] at hres
      simp only [pureHTLinesAux, hinc] at hp
      exact ih dir acc t incs hres hp
    | some name =>
      cases hr : resolveName C fs dir name with
      | none =>
        simp only [resolveLines, hinc, hr] at hres
        cases hres
      | some f =>
        simp only [resolveLines, hinc, hr] at hres
        simp only [pureHTLinesAux, hinc, hr] at hp
        cases hrl : resolveLines C fs dir rest with
        | none => rw [hrl] at hres; cases hres
        | some l =>
          rw [hrl] at hres
          injection hres with h1
          subst h1
          cases hrf : rec f with
          | none => rw [hrf] at hp; cases hp
          | some ti =>
            rw [hrf] at hp
            obtain ⟨ts, hforall, hfold⟩ := ih dir (max ti acc) t l hrl hp
            exact ⟨ti :: ts, List.Forall₂.cons hrf hforall, by
              rw [List.foldl_cons]; exact hfold⟩

theorem forall2_eq_of_fun {α β : Type} {P Q : α → β → Prop} :
    ∀ {incs : List α} {ts1 ts2 : List β}, List.Forall₂ P incs ts1 →
      List.Forall₂ Q incs ts2 → (∀ i a b, P i a → Q i b → a = b) → ts1 = ts2 := by
  intro incs ts1 ts2 h1
  induction h1 generalizing ts2 with
  | nil => intro h2 _; cases h2; rfl
  | cons hp _ ih =>
    intro h2 hu
    cases h2 with
    | cons hq h2r => rw [hu _ _ _ hp hq, ih h2r hu]

theorem foldl_max_flip : ∀ (ts : List Nat) (a : Nat),
    ts.foldl (fun x y => max y x) a = ts.foldl max a := by
  intro ts
  induction ts with
  | nil => intro a; rfl
  | cons b rest ih =>
    intro a
    rw [List.foldl_cons, List.foldl_cons, Nat.max_comm, ih]

/-- C2: whenever the (memoised) oracle succeeds on a source file `S` from the
program's initial empty memo, the returned hierarchical time equals the
maximum of `S`'s own last-write-time and the hierarchical times the oracle
returns for each of the files resolved from `S`'s matching `#include` lines
that survive the relaxed-include filter. -/
theorem c2_hierarchical_time_eq (C : IncCtx) (fs : SrcFS) (S : String)
    (fuel t : Nat) (m2 : Memo) (incs : List String) (ts : List Nat)
    (hok : ghut C fs fuel [] S = .ok t m2)
    (hincs : resolvedIncludesOf C fs S = some incs)
    (hts : List.Forall₂ (fun i ti => ∃ f2 m3, ghut C fs f2 [] i = .ok ti m3) incs ts) :
    t = ts.foldl max (srcLwt fs S) := by
  have hmOK : memoOK C fs [] := fun p t0 h => by cases h
  obtain ⟨_, fl, hp⟩ := ghut_sound C fs fuel [] S t m2 hmOK hok
  cases fl with
  | zero => cases hp
  | succ n =>
    simp only [pureHT] at hp
    cases hf : assocFind fs S with
    | none => rw [hf] at hp; cases hp
    | some fd =>
      rw [hf] at hp
      have hres : resolveLines C fs (parentDir S) fd.lines = some incs := by
        simp only [resolvedIncludesOf, hf] at hincs
        exact hincs
      obtain ⟨ts', hforall, hfold⟩ := pureHTLinesAux_forall2 C fs (pureHT C fs n)
        fd.lines (parentDir S) fd.lwt t incs hres hp
      have hts_eq : ts' = ts := by
        refine forall2_eq_of_fun hforall hts ?_
        intro i a b hpa hgb
        obtain ⟨f2, m3, hgb2⟩ := hgb
        obtain ⟨_, flb, hpb⟩ := ghut_sound C fs f2 [] i b m3 hmOK hgb2
        have h1 : pureHT C fs (max n flb) i = some a :=
          pureHT_mono_le C fs (Nat.le_max_left _ _) _ _ hpa
        have h2 : pureHT C fs (max n flb) i = some b :=
          pureHT_mono_le C fs (Nat.le_max_right _ _) _ _ hpb
        rw [h1] at h2
        injection h2
      have hsrc : srcLwt fs S = fd.lwt := by simp [srcLwt, hf]
      rw [hsrc, ← hts_eq, ← foldl_max_flip]
      exact hfold

def exIncFS : SrcFS :=
  [("d/s.hlsl", ⟨5, ["#include \"inc.h\"", "code"]⟩), ("d/inc.h", ⟨7, []⟩)]

/-- C2 witness: for `d/s.hlsl` (lwt 5) including `d/inc.h` (lwt 7), the
oracle returns `7 = max 5 7`, the include's hierarchical time being `7`. -/
theorem c2_hierarchical_time_eq_witness :
    ghut emptyCtx exIncFS 3 [] "d/s.hlsl" = .ok 7 [("d/s.hlsl", 7), ("d/inc.h", 7)]
    ∧ (7 : Nat) = List.foldl max (srcLwt exIncFS "d/s.hlsl") [7] := by
  refine ⟨by decide, ?_⟩
  exact c2_hierarchical_time_eq emptyCtx exIncFS "d/s.hlsl" 3 7
    [("d/s.hlsl", 7), ("d/inc.h", 7)] ["d/inc.h"] [7] (by decide) (by decide)
    (List.Forall₂.cons ⟨2, [("d/inc.h", 7)], by decide⟩ List.Forall₂.nil)

end SMK
